import Mathlib

/-!
Shallow embedding of the stock-price ingestion core
(`src/app/stock_price/service.py`,
`src/app/database/repository/stock_price_1m_repository.py`,
`src/app/database/repository/ticker_repository.py`,
`src/app/infra/external/yfinance_fetcher.py`).

Timestamps are modelled as a calendar-day ordinal (local time, JST) plus a
time-of-day measured in microseconds; `datetime.date()` is the `day` field,
`datetime.min.time()` is time-of-day 0 and `datetime.max.time()` is
time-of-day 86399999999 (23:59:59.999999).  Decimal prices with
`max_digits=10, decimal_places=2` are modelled as integer hundredths
(cents), so a value fits the column exactly when its absolute value is
below 10^10.
-/

/-- A timezone-aware datetime in the instrument's local timezone:
calendar-day ordinal plus microsecond-of-day. -/
structure LocalDateTime where
  day : Int
  tod : Nat
deriving DecidableEq

/-- `datetime.max.time()` as microseconds of the day (23:59:59.999999). -/
def endOfDayTod : Nat := 86399999999

/-- Lexicographic order on datetimes (`day`, then `tod`),
the order `datetime` comparison uses. -/
def dtLE (a b : LocalDateTime) : Prop :=
  a.day < b.day ∨ (a.day = b.day ∧ a.tod ≤ b.tod)

/-- Strict lexicographic order on datetimes. -/
def dtLT (a b : LocalDateTime) : Prop :=
  a.day < b.day ∨ (a.day = b.day ∧ a.tod < b.tod)

instance (a b : LocalDateTime) : Decidable (dtLE a b) := by
  unfold dtLE; infer_instance

instance (a b : LocalDateTime) : Decidable (dtLT a b) := by
  unfold dtLT; infer_instance

/-- `MIN_RECORDS_PER_DAY` from `service.py`: a day with fewer
records is treated as partially missing and re-fetched. -/
def MIN_RECORDS_PER_DAY : Nat := 200

/-- One row of `StockPrice1mRepository.get_date_ranges`: the per-day
aggregate `(min_datetime, max_datetime, count)` for one calendar day. -/
abbrev CoverRow := LocalDateTime × LocalDateTime × Nat

/-- `StockPriceService._to_datetime_range`: a day pair becomes the span
from the first day's `datetime.min.time()` to the last day's
`datetime.max.time()`, tagged with the local timezone. -/
def toDatetimeRange (s e : Int) : LocalDateTime × LocalDateTime :=
  (⟨s, 0⟩, ⟨e, endOfDayTod⟩)

/-- The calendar days from `a` to `b` inclusive (empty when `a > b`):
the `while current_date <= end_date_only` walk of `_get_missing_ranges`. -/
def daysFromTo (a b : Int) : List Int :=
  (List.range (b + 1 - a).toNat).map (fun i : Nat => a + (i : Int))

/-- The `complete_dates` set of `_get_missing_ranges`: the days of the
coverage rows whose count meets `MIN_RECORDS_PER_DAY` (the day of a
coverage row is `min_dt.date()`). -/
def completeDates (ranges : List CoverRow) : List Int :=
  (ranges.filter (fun r => MIN_RECORDS_PER_DAY ≤ r.2.2)).map (fun r => r.1.day)

/-- The merge loop of `_get_missing_ranges`: given the open run
`[rangeStart..prev]` and the remaining missing days, extend the run on a
consecutive day, otherwise close it with `_to_datetime_range` and start a
new run; the final run is closed at the end. -/
def mergeMissing : Int → Int → List Int → List (LocalDateTime × LocalDateTime)
  | rangeStart, prev, [] => [toDatetimeRange rangeStart prev]
  | rangeStart, prev, d :: rest =>
    if d = prev + 1 then
      mergeMissing rangeStart d rest
    else
      toDatetimeRange rangeStart prev :: mergeMissing d d rest

/-- `StockPriceService._get_missing_ranges` as a pure function of the
window and the coverage rows returned by `get_date_ranges`:
empty coverage short-circuits to the whole window; otherwise every
window day absent from `complete_dates` is missing and consecutive
missing days are merged into datetime ranges. -/
def getMissingRanges (startDate endDate : LocalDateTime)
    (existingRanges : List CoverRow) : List (LocalDateTime × LocalDateTime) :=
  if existingRanges.isEmpty then
    [(startDate, endDate)]
  else
    let complete := completeDates existingRanges
    let missingDates :=
      (daysFromTo startDate.day endDate.day).filter (fun d => ¬ d ∈ complete)
    match missingDates with
    | [] => []
    | m :: rest => mergeMissing m m rest

/-- The per-day walk of `_get_missing_ranges` without the empty-coverage
shortcut, used to state that the shortcut is semantically equivalent to
the walk (spec §4.1). -/
def getMissingRangesWalk (startDate endDate : LocalDateTime)
    (existingRanges : List CoverRow) : List (LocalDateTime × LocalDateTime) :=
  let complete := completeDates existingRanges
  let missingDates :=
    (daysFromTo startDate.day endDate.day).filter (fun d => ¬ d ∈ complete)
  match missingDates with
  | [] => []
  | m :: rest => mergeMissing m m rest

/-!
## Price store: `StockPrice1mRepository`

A `StockPrice1m` row (`src/app/database/model/stock_price_1m.py`) carries
ticker, price datetime, four `NUMERIC(10,2)` prices (modelled as integer
hundredths, valid below 10^10 in absolute value) and a `BigInteger`
volume.  The session is modelled as the durably committed rows plus the
rows pending in the current (uncommitted) transaction; the `INSERT ..
ON CONFLICT (ticker, price_datetime) DO NOTHING` statement sees
committed and pending rows alike, fails atomically when some row does
not fit its column, and otherwise appends the non-conflicting rows to
the pending set.
-/

/-- The fields of a `StockPrice1m` record that the insert statement
writes (`_to_insert_row`); prices are integer hundredths. -/
structure Row where
  ticker : String
  dt : LocalDateTime
  o : Int
  hi : Int
  lo : Int
  c : Int
  vol : Int
deriving DecidableEq

/-- A price value fits `NUMERIC(10,2)` (max 10 digits, 2 fractional)
exactly when its absolute value in hundredths is below 10^10, and a
volume fits `BigInteger` when it is below 2^63 in absolute value. -/
def rowValid (r : Row) : Bool :=
  r.o.natAbs < 10 ^ 10 && r.hi.natAbs < 10 ^ 10 &&
    r.lo.natAbs < 10 ^ 10 && r.c.natAbs < 10 ^ 10 && r.vol.natAbs < 2 ^ 63

/-- Whether some row of `l` already occupies the unique key
`(ticker, price_datetime)`. -/
def hasKey (l : List Row) (t : String) (d : LocalDateTime) : Bool :=
  l.any (fun r => r.ticker = t && r.dt = d)

/-- The rows a single `INSERT .. ON CONFLICT DO NOTHING` statement
actually inserts, given the rows already visible: a row conflicting with
a visible row (or with an earlier row of the same statement) is silently
skipped. -/
def applyInsert (visible : List Row) : List Row → List Row
  | [] => []
  | r :: rest =>
    if hasKey visible r.ticker r.dt then
      applyInsert visible rest
    else
      r :: applyInsert (visible ++ [r]) rest

/-- A database session: committed rows plus rows pending in the current
transaction. -/
structure Session where
  committed : List Row
  pending : List Row
deriving DecidableEq

/-- `StockPrice1mRepository._pinpoint_and_log_bulk_error`: replay each
row of the failed batch inside its own `begin_nested()` savepoint; a
row whose insert raises is rolled back to the savepoint and logged, a
row whose insert succeeds stays pending in the outer (uncommitted)
transaction.  Returns the session after the replay and the rows logged
as failing. -/
def pinpointAndLog (s : Session) : List Row → Session × List Row
  | [] => (s, [])
  | r :: rest =>
    if rowValid r then
      pinpointAndLog
        { s with
          pending := s.pending ++ applyInsert (s.committed ++ s.pending) [r] }
        rest
    else
      let (s', logged) := pinpointAndLog s rest
      (s', r :: logged)

/-- `StockPrice1mRepository.bulk_insert`: empty input returns 0 with no
round trip; otherwise the set-based conflict-skipping insert runs and on
success the transaction is committed and the count of rows actually
inserted (the `RETURNING` rows) is returned; if the statement fails (a
row does not fit its columns) the session is rolled back, the per-row
diagnostic replay runs, and the original error is re-raised. -/
def bulkInsert (s : Session) (records : List Row) : Session × Except Row Nat :=
  if records.isEmpty then
    (s, Except.ok 0)
  else
    match records.find? (fun r => ¬ rowValid r) with
    | none =>
      let newRows := applyInsert (s.committed ++ s.pending) records
      ({ committed := s.committed ++ s.pending ++ newRows, pending := [] },
        Except.ok newRows.length)
    | some bad =>
      let rolledBack : Session := { s with pending := [] }
      ((pinpointAndLog rolledBack records).1, Except.error bad)

/-!
## Data fetcher: `YFinanceFetcher`

`_fetch_1m_data_sync` loops `attempt = 1 .. max_retries`; a successful
provider call returns the cleaned frame immediately, a failing attempt
sleeps `retry_delay` seconds when further attempts remain and re-raises
the current error on the last attempt.  The provider is modelled as an
attempt-indexed result (raised error or raw frame); the loop result
carries the number of attempts actually made and the total seconds
slept.  A raw frame is an optional index timezone plus rows whose five
numeric fields may each be missing (NaN).
-/

/-- One raw bar as returned by the provider: timezone-aware minute
timestamp and five optional (possibly-NaN) numeric fields, prices in
integer hundredths. -/
structure RawBar where
  dt : LocalDateTime
  o : Option Int
  hi : Option Int
  lo : Option Int
  c : Option Int
  vol : Option Int
deriving DecidableEq

/-- A raw provider frame: the index timezone (none when the provider
returned naive timestamps) and the bars. -/
structure RawDf where
  tz : Option String
  bars : List RawBar
deriving DecidableEq

/-- A cleaned bar: all five numeric fields present. -/
structure CleanBar where
  dt : LocalDateTime
  o : Int
  hi : Int
  lo : Int
  c : Int
  vol : Int
deriving DecidableEq

/-- A cleaned frame: a definite timezone (unless empty) and complete
bars. -/
structure CleanDf where
  tz : Option String
  bars : List CleanBar
deriving DecidableEq

/-- `YFinanceFetcher._validate_and_clean`: an empty frame is returned
as is; otherwise a missing index timezone is localized to UTC, the five
needed columns are kept, and rows with any NaN field are dropped. -/
def validateAndClean (df : RawDf) : CleanDf :=
  if df.bars.isEmpty then
    ⟨df.tz, []⟩
  else
    let tz := some (df.tz.getD "UTC")
    let bars := df.bars.filterMap (fun b =>
      match b.o, b.hi, b.lo, b.c, b.vol with
      | some o, some hi, some lo, some c, some vol =>
        some ⟨b.dt, o, hi, lo, c, vol⟩
      | _, _, _, _, _ => none)
    ⟨tz, bars⟩

/-- The retry loop of `_fetch_1m_data_sync`, counting down the
remaining iterations of `range(attempt, max_retries + 1)`: a successful
attempt returns the cleaned frame, a failed attempt sleeps `delay` and
continues when iterations remain, and re-raises on the last one.
Returns (result, attempts made, total seconds slept); an exhausted
`range` (only possible for `max_retries < 1`) falls through to the
trailing `return pd.DataFrame()`. -/
def fetchGo (provider : Nat → Except String RawDf) (delay : Nat) :
    Nat → Nat → Except String CleanDf × Nat × Nat
  | _, 0 => (Except.ok ⟨none, []⟩, 0, 0)
  | attempt, rem + 1 =>
    match provider attempt with
    | Except.ok df => (Except.ok (validateAndClean df), 1, 0)
    | Except.error e =>
      if rem = 0 then
        (Except.error e, 1, 0)
      else
        let (res, n, slept) := fetchGo provider delay (attempt + 1) rem
        (res, n + 1, slept + delay)

/-- `YFinanceFetcher._fetch_1m_data_sync` for one (ticker, range):
attempts start at 1 and at most `maxRetries` are made. -/
def fetchSync (provider : Nat → Except String RawDf)
    (maxRetries delay : Nat) : Except String CleanDf × Nat × Nat :=
  fetchGo provider delay 1 maxRetries

/-!
## Orchestrator: `StockPriceService` and `TickerRepository`

`process_ticker` computes the missing ranges for the window, then walks
them: a fetch error or an import error for one range is caught, logged
and skipped; an empty frame is skipped; in dry-run mode the frame length
is counted without touching the store.  `process_all_tickers` walks the
active tickers and catches any per-ticker exception (in this embedding
the only uncaught exception inside `process_ticker` is a failing
coverage query).  The fetch and coverage-query collaborators are passed
in as functions; the fetched frame is its list of cleaned bars.
-/

/-- An instrument row of `tickers`
(`src/app/database/model/ticker.py`): code and active flag. -/
structure TickerRec where
  ticker : String
  is_active : Bool
deriving DecidableEq

/-- `TickerRepository.get_active_tickers`: with a truthy (non-None,
non-empty) `specific_ticker` filter on code equality AND the active
flag; otherwise filter on the active flag alone. -/
def getActiveTickers (registry : List TickerRec) (specific : Option String) :
    List TickerRec :=
  match specific with
  | some sp =>
    if sp ≠ "" then
      registry.filter (fun t => t.ticker = sp && t.is_active)
    else
      registry.filter (fun t => t.is_active)
  | none => registry.filter (fun t => t.is_active)

/-- `StockPriceService._import_price_data`'s record construction: one
frame row becomes a `StockPrice1m` record for the ticker. -/
def toRow (ticker : String) (b : CleanBar) : Row :=
  ⟨ticker, b.dt, b.o, b.hi, b.lo, b.c, b.vol⟩

/-- The body of the range loop of `process_ticker` for one missing
range: fetch (an error is caught and the range skipped), skip an empty
frame, count without persisting in dry-run mode, otherwise bulk-insert
the mapped records (an insert error is caught and the range skipped).
Returns the session and this range's contribution to the total. -/
def processRange (ticker : String) (dryRun : Bool)
    (fetch : LocalDateTime × LocalDateTime → Except String (List CleanBar))
    (s : Session) (rg : LocalDateTime × LocalDateTime) : Session × Nat :=
  match fetch rg with
  | Except.error _ => (s, 0)
  | Except.ok df =>
    if df.isEmpty then
      (s, 0)
    else if dryRun then
      (s, df.length)
    else
      match bulkInsert s (df.map (toRow ticker)) with
      | (s', Except.ok n) => (s', n)
      | (s', Except.error _) => (s', 0)

/-- The range loop of `process_ticker`: fold `processRange` over the
missing ranges, threading the session and accumulating
`total_imported`. -/
def processRanges (ticker : String) (dryRun : Bool)
    (fetch : LocalDateTime × LocalDateTime → Except String (List CleanBar)) :
    Session → List (LocalDateTime × LocalDateTime) → Session × Nat
  | s, [] => (s, 0)
  | s, rg :: rest =>
    let (s1, n) := processRange ticker dryRun fetch s rg
    let (s2, m) := processRanges ticker dryRun fetch s1 rest
    (s2, n + m)

/-- `StockPriceService.process_ticker`: the coverage query may raise
(propagated to the caller); otherwise the missing ranges are computed
and walked, and the per-instrument total is returned.  `startDate` and
`endDate` stand for the window derived from `now` and `days`. -/
def processTicker
    (fetch : LocalDateTime × LocalDateTime → Except String (List CleanBar))
    (covResult : Except String (List CoverRow)) (ticker : String)
    (startDate endDate : LocalDateTime) (dryRun : Bool) (s : Session) :
    Except String (Session × Nat) :=
  match covResult with
  | Except.error e => Except.error e
  | Except.ok cov =>
    let ranges := getMissingRanges startDate endDate cov
    if ranges.isEmpty then
      Except.ok (s, 0)
    else
      Except.ok (processRanges ticker dryRun fetch s ranges)

/-- The ticker loop of `process_all_tickers`: any exception from
`process_ticker` is caught and logged and the loop continues with the
next ticker. -/
def processTickersLoop
    (fetchEnv : String → LocalDateTime × LocalDateTime →
      Except String (List CleanBar))
    (covEnv : String → Except String (List CoverRow))
    (startDate endDate : LocalDateTime) (dryRun : Bool) :
    Session → List TickerRec → Session
  | s, [] => s
  | s, t :: rest =>
    match processTicker (fetchEnv t.ticker) (covEnv t.ticker) t.ticker
        startDate endDate dryRun s with
    | Except.error _ =>
      processTickersLoop fetchEnv covEnv startDate endDate dryRun s rest
    | Except.ok (s', _) =>
      processTickersLoop fetchEnv covEnv startDate endDate dryRun s' rest

/-- `StockPriceService.process_all_tickers`: query the active tickers
(optionally filtered to one code) and process each, containing
per-ticker failures. -/
def processAllTickers
    (fetchEnv : String → LocalDateTime × LocalDateTime →
      Except String (List CleanBar))
    (covEnv : String → Except String (List CoverRow))
    (registry : List TickerRec) (specific : Option String)
    (startDate endDate : LocalDateTime) (dryRun : Bool) (s : Session) :
    Session :=
  processTickersLoop fetchEnv covEnv startDate endDate dryRun s
    (getActiveTickers registry specific)

/-- The bars the range loop would fetch over a list of ranges: each
range contributes its fetched frame (nothing on a fetch error), in
order.  Used to state the dry-run/real-run count comparison. -/
def fetchedBars
    (fetch : LocalDateTime × LocalDateTime → Except String (List CleanBar)) :
    List (LocalDateTime × LocalDateTime) → List CleanBar
  | [] => []
  | rg :: rest =>
    (match fetch rg with
     | Except.ok df => df
     | Except.error _ => []) ++ fetchedBars fetch rest

/-!
## Lemmas: fetcher retry loop
-/

theorem fetchGo_attempts_le (provider : Nat → Except String RawDf)
    (delay : Nat) :
    ∀ rem attempt, (fetchGo provider delay attempt rem).2.1 ≤ rem := by
  intro rem
  induction rem with
  | zero => intro attempt; simp [fetchGo]
  | succ r ih =>
    intro attempt
    simp only [fetchGo]
    cases h : provider attempt with
    | ok df => simp
    | error e =>
      by_cases hr : r = 0
      · simp [hr]
      · simpa [hr] using Nat.succ_le_succ (ih (attempt + 1))

theorem fetchGo_success (provider : Nat → Except String RawDf)
    (delay : Nat) (df : RawDf) :
    ∀ i rem attempt, i < rem →
      (∀ j, attempt ≤ j → j < attempt + i → ∃ e, provider j = Except.error e) →
      provider (attempt + i) = Except.ok df →
      fetchGo provider delay attempt rem =
        (Except.ok (validateAndClean df), i + 1, i * delay) := by
  intro i
  induction i with
  | zero =>
    intro rem attempt hlt _ hok
    obtain ⟨r, rfl⟩ : ∃ r, rem = r + 1 := ⟨rem - 1, by omega⟩
    simp only [fetchGo]
    rw [show attempt + 0 = attempt from rfl] at hok
    simp [hok]
  | succ i ih =>
    intro rem attempt hlt herr hok
    obtain ⟨r, rfl⟩ : ∃ r, rem = r + 1 := ⟨rem - 1, by omega⟩
    obtain ⟨e, he⟩ := herr attempt (le_refl _) (by omega)
    have hr : r ≠ 0 := by omega
    have ihres := ih r (attempt + 1) (by omega)
      (fun j h1 h2 => herr j (by omega) (by omega))
      (by rw [show attempt + 1 + i = attempt + (i + 1) by omega]; exact hok)
    simp only [fetchGo, he, hr, if_false]
    rw [ihres]
    refine Prod.ext rfl (Prod.ext rfl ?_)
    simp [Nat.succ_mul]

theorem fetchGo_allFail (provider : Nat → Except String RawDf)
    (delay : Nat) :
    ∀ rem attempt, 1 ≤ rem →
      (∀ j, attempt ≤ j → j < attempt + rem → ∃ e, provider j = Except.error e) →
      ∃ e, provider (attempt + rem - 1) = Except.error e ∧
        fetchGo provider delay attempt rem =
          (Except.error e, rem, (rem - 1) * delay) := by
  intro rem
  induction rem with
  | zero => intro attempt h; omega
  | succ r ih =>
    intro attempt _ herr
    obtain ⟨e, he⟩ := herr attempt (le_refl _) (by omega)
    by_cases hr : r = 0
    · subst hr
      refine ⟨e, ?_, ?_⟩
      · simpa using he
      · simp [fetchGo, he]
    · have hr1 : 1 ≤ r := by omega
      obtain ⟨e', he', heq⟩ := ih (attempt + 1) hr1
        (fun j h1 h2 => herr j (by omega) (by omega))
      refine ⟨e', ?_, ?_⟩
      · rw [show attempt + (r + 1) - 1 = attempt + 1 + r - 1 by omega]
        exact he'
      · simp only [fetchGo, he, hr, if_false]
        rw [heq]
        refine Prod.ext rfl (Prod.ext rfl ?_)
        simp only [Nat.add_sub_cancel]
        have : r - 1 + 1 = r := by omega
        calc (r - 1) * delay + delay = (r - 1 + 1) * delay := by
              rw [Nat.succ_mul]
          _ = r * delay := by rw [this]

/-- Claim C8: `fetch_1m_data` makes at most `max_retries` provider
attempts; a first success at attempt `k` returns the cleaned frame
immediately, having slept the fixed delay after each of the `k - 1`
failed attempts and not after the last; if every attempt up to
`max_retries ≥ 1` fails, the last failure is re-raised (no frame is
returned) after `max_retries` attempts and `max_retries - 1` sleeps. -/
theorem fetchSync_retry_contract (provider : Nat → Except String RawDf)
    (maxRetries delay : Nat) :
    (fetchSync provider maxRetries delay).2.1 ≤ maxRetries ∧
    (∀ k df, 1 ≤ k → k ≤ maxRetries →
      (∀ j, 1 ≤ j → j < k → ∃ e, provider j = Except.error e) →
      provider k = Except.ok df →
      fetchSync provider maxRetries delay =
        (Except.ok (validateAndClean df), k, (k - 1) * delay)) ∧
    (1 ≤ maxRetries →
      (∀ j, 1 ≤ j → j ≤ maxRetries → ∃ e, provider j = Except.error e) →
      ∃ e, provider maxRetries = Except.error e ∧
        fetchSync provider maxRetries delay =
          (Except.error e, maxRetries, (maxRetries - 1) * delay)) := by
  refine ⟨fetchGo_attempts_le provider delay maxRetries 1, ?_, ?_⟩
  · intro k df hk1 hkmax herr hok
    have := fetchGo_success provider delay df (k - 1) maxRetries 1
      (by omega) (fun j h1 h2 => herr j h1 (by omega))
      (by rw [show 1 + (k - 1) = k by omega]; exact hok)
    rw [fetchSync, this, show k - 1 + 1 = k by omega]
  · intro hmax herr
    obtain ⟨e, he, heq⟩ := fetchGo_allFail provider delay maxRetries 1 hmax
      (fun j h1 h2 => herr j h1 (by omega))
    refine ⟨e, ?_, ?_⟩
    · rw [show 1 + maxRetries - 1 = maxRetries by omega] at he
      exact he
    · exact heq

/-- Concrete instance of claim C8: a provider failing on attempt 1 and
succeeding on attempt 2 with an empty frame, under `max_retries = 3`
and `retry_delay = 5`, returns after exactly 2 attempts and one 5-second
sleep. -/
theorem fetchSync_retry_contract_witness :
    fetchSync (fun a => if a < 2 then Except.error "boom" else
        Except.ok ⟨none, []⟩) 3 5 =
      (Except.ok (validateAndClean ⟨none, []⟩), 2, 5) := by
  have h := (fetchSync_retry_contract
    (fun a => if a < 2 then Except.error "boom" else Except.ok ⟨none, []⟩)
    3 5).2.1 2 ⟨none, []⟩ (by omega) (by omega)
    (fun j h1 h2 => ⟨"boom", by
      have : j = 1 := by omega
      subst this
      rfl⟩)
    (by rfl)
  simpa using h

/-!
## Lemmas: conflict-skipping insert
-/

theorem hasKey_append (l1 l2 : List Row) (t : String) (d : LocalDateTime) :
    hasKey (l1 ++ l2) t d = (hasKey l1 t d || hasKey l2 t d) := by
  simp [hasKey, List.any_append]

theorem applyInsert_mem_key (rows : List Row) :
    ∀ visible r, r ∈ rows →
      hasKey (visible ++ applyInsert visible rows) r.ticker r.dt = true := by
  induction rows with
  | nil => intro visible r hr; cases hr
  | cons r0 rest ih =>
    intro visible r hr
    by_cases h0 : hasKey visible r0.ticker r0.dt = true
    · simp only [applyInsert, h0, if_true]
      rcases List.mem_cons.mp hr with rfl | hr'
      · rw [hasKey_append, h0, Bool.true_or]
      · exact ih visible r hr'
    · rw [Bool.not_eq_true] at h0
      simp only [applyInsert, h0, Bool.false_eq_true, if_false]
      rcases List.mem_cons.mp hr with rfl | hr'
      · rw [hasKey]
        rw [List.any_eq_true]
        exact ⟨r, by simp, by simp⟩
      · rw [List.append_cons]
        exact ih (visible ++ [r0]) r hr'

theorem applyInsert_eq_nil (rows : List Row) :
    ∀ visible, (∀ r ∈ rows, hasKey visible r.ticker r.dt = true) →
      applyInsert visible rows = [] := by
  induction rows with
  | nil => intro visible _; rfl
  | cons r0 rest ih =>
    intro visible h
    have h0 := h r0 (List.mem_cons_self _ _)
    simp only [applyInsert, h0, if_true]
    exact ih visible (fun r hr => h r (List.mem_cons_of_mem _ hr))

theorem applyInsert_new_keys (rows : List Row) :
    ∀ visible r, r ∈ applyInsert visible rows →
      hasKey visible r.ticker r.dt = false := by
  induction rows with
  | nil => intro visible r hr; simp [applyInsert] at hr
  | cons r0 rest ih =>
    intro visible r hr
    by_cases h0 : hasKey visible r0.ticker r0.dt = true
    · simp only [applyInsert, h0, if_true] at hr
      exact ih visible r hr
    · rw [Bool.not_eq_true] at h0
      simp only [applyInsert, h0, Bool.false_eq_true, if_false] at hr
      rcases List.mem_cons.mp hr with rfl | hr'
      · exact h0
      · have := ih (visible ++ [r0]) r hr'
        rw [hasKey_append, Bool.or_eq_false_iff] at this
        exact this.1

/-- Claim C1: on a clean session, a bulk insert of storable records
never errors: it returns the count of rows the store actually grew by
(duplicates of already-present `(ticker, price_datetime)` keys are
silently skipped and the pre-existing rows under those keys are left
untouched), and repeating the same call leaves the session unchanged
and reports 0 newly inserted. -/
theorem bulkInsert_conflict_skip_idempotent (s : Session)
    (records : List Row) (hvalid : ∀ r ∈ records, rowValid r = true)
    (hpend : s.pending = []) :
    (bulkInsert s records).2 =
      Except.ok ((bulkInsert s records).1.committed.length -
        s.committed.length) ∧
    (∀ t d, hasKey s.committed t d = true →
      (bulkInsert s records).1.committed.filter
          (fun r => r.ticker = t && r.dt = d) =
        s.committed.filter (fun r => r.ticker = t && r.dt = d)) ∧
    bulkInsert (bulkInsert s records).1 records =
      ((bulkInsert s records).1, Except.ok 0) := by
  obtain ⟨comm, pend⟩ := s
  simp only at hpend
  subst hpend
  cases records with
  | nil => simp [bulkInsert]
  | cons r0 rest =>
    have hfind : (r0 :: rest).find? (fun r => !rowValid r) = none := by
      rw [List.find?_eq_none]
      intro r hr
      simp [hvalid r hr]
    have hunfold : bulkInsert ⟨comm, []⟩ (r0 :: rest) =
        (⟨comm ++ applyInsert comm (r0 :: rest), []⟩,
          Except.ok (applyInsert comm (r0 :: rest)).length) := by
      simp [bulkInsert, hfind]
    refine ⟨?_, ?_, ?_⟩
    · rw [hunfold]
      simp [List.length_append]
    · intro t d hkey
      rw [hunfold]
      simp only [List.filter_append]
      have hnil : (applyInsert comm (r0 :: rest)).filter
          (fun r => r.ticker = t && r.dt = d) = [] := by
        rw [List.filter_eq_nil_iff]
        intro r hr
        have hfalse := applyInsert_new_keys (r0 :: rest) comm r hr
        intro hmatch
        rw [Bool.and_eq_true, decide_eq_true_eq, decide_eq_true_eq] at hmatch
        rw [hmatch.1, hmatch.2, hkey] at hfalse
        cases hfalse
      rw [hnil, List.append_nil]
    · rw [hunfold]
      have hall : ∀ r ∈ (r0 :: rest),
          hasKey (comm ++ applyInsert comm (r0 :: rest)) r.ticker r.dt
            = true :=
        fun r hr => applyInsert_mem_key (r0 :: rest) comm r hr
      have hnil2 : applyInsert
          (comm ++ applyInsert comm (r0 :: rest)) (r0 :: rest) = [] :=
        applyInsert_eq_nil (r0 :: rest) _ hall
      simp [bulkInsert, hfind, hnil2]

/-- Concrete instance of claim C1: re-running a two-record bulk insert
(one record colliding with a stored row, one new) changes nothing and
reports 0. -/
theorem bulkInsert_conflict_skip_idempotent_witness :
    bulkInsert (bulkInsert ⟨[⟨"X", ⟨0, 0⟩, 1, 1, 1, 1, 1⟩], []⟩
        [⟨"X", ⟨0, 0⟩, 2, 2, 2, 2, 2⟩, ⟨"X", ⟨0, 1⟩, 3, 3, 3, 3, 3⟩]).1
      [⟨"X", ⟨0, 0⟩, 2, 2, 2, 2, 2⟩, ⟨"X", ⟨0, 1⟩, 3, 3, 3, 3, 3⟩] =
      ((bulkInsert ⟨[⟨"X", ⟨0, 0⟩, 1, 1, 1, 1, 1⟩], []⟩
        [⟨"X", ⟨0, 0⟩, 2, 2, 2, 2, 2⟩, ⟨"X", ⟨0, 1⟩, 3, 3, 3, 3, 3⟩]).1,
        Except.ok 0) :=
  (bulkInsert_conflict_skip_idempotent
    ⟨[⟨"X", ⟨0, 0⟩, 1, 1, 1, 1, 1⟩], []⟩
    [⟨"X", ⟨0, 0⟩, 2, 2, 2, 2, 2⟩, ⟨"X", ⟨0, 1⟩, 3, 3, 3, 3, 3⟩]
    (by decide) rfl).2.2

/-!
## Lemmas: bulk failure, rollback and diagnostic replay
-/

theorem pinpointAndLog_logged (rows : List Row) :
    ∀ s, (pinpointAndLog s rows).2 = rows.filter (fun r => !rowValid r) := by
  induction rows with
  | nil => intro s; rfl
  | cons r rest ih =>
    intro s
    by_cases h : rowValid r = true
    · simp only [pinpointAndLog, h, if_true, List.filter_cons,
        Bool.not_true, Bool.false_eq_true, if_false]
      exact ih _
    · rw [Bool.not_eq_true] at h
      simp only [pinpointAndLog, h, Bool.false_eq_true, if_false,
        List.filter_cons, Bool.not_false, if_true]
      rw [← ih s]

theorem pinpointAndLog_committed (rows : List Row) :
    ∀ s, (pinpointAndLog s rows).1.committed = s.committed := by
  induction rows with
  | nil => intro s; rfl
  | cons r rest ih =>
    intro s
    by_cases h : rowValid r = true
    · simp only [pinpointAndLog, h, if_true]
      rw [ih]
    · rw [Bool.not_eq_true] at h
      simp only [pinpointAndLog, h, Bool.false_eq_true, if_false]
      exact ih s

/-- Claim C9: when the set-based insert fails, `bulk_insert` rolls the
session back, runs the per-row diagnostic replay on the rolled-back
session, and re-raises the original error: it never returns an inserted
count, and the durable store is exactly what it was before the call
(the replay commits nothing). -/
theorem bulkInsert_error_atomic (s : Session) (records : List Row)
    (bad : Row) (hbad : records.find? (fun r => !rowValid r) = some bad) :
    (bulkInsert s records).2 = Except.error bad ∧
    (bulkInsert s records).1.committed = s.committed ∧
    (bulkInsert s records).1 =
      (pinpointAndLog { s with pending := [] } records).1 := by
  cases records with
  | nil => cases hbad
  | cons r0 rest =>
    have hunfold : bulkInsert s (r0 :: rest) =
        ((pinpointAndLog { s with pending := [] } (r0 :: rest)).1,
          Except.error bad) := by
      simp [bulkInsert, hbad]
    refine ⟨by rw [hunfold], ?_, by rw [hunfold]⟩
    rw [hunfold]
    exact pinpointAndLog_committed (r0 :: rest) _

/-- Concrete instance of claim C9: a batch holding one overflowing
record re-raises the error after the replay, with nothing committed. -/
theorem bulkInsert_error_atomic_witness :
    (bulkInsert ⟨[⟨"Y", ⟨2, 0⟩, 7, 7, 7, 7, 7⟩], []⟩
        [⟨"Y", ⟨2, 1⟩, 10 ^ 10, 1, 1, 1, 1⟩]).2 =
      Except.error ⟨"Y", ⟨2, 1⟩, 10 ^ 10, 1, 1, 1, 1⟩ ∧
    (bulkInsert ⟨[⟨"Y", ⟨2, 0⟩, 7, 7, 7, 7, 7⟩], []⟩
        [⟨"Y", ⟨2, 1⟩, 10 ^ 10, 1, 1, 1, 1⟩]).1.committed =
      [⟨"Y", ⟨2, 0⟩, 7, 7, 7, 7, 7⟩] :=
  ⟨(bulkInsert_error_atomic ⟨[⟨"Y", ⟨2, 0⟩, 7, 7, 7, 7, 7⟩], []⟩
      [⟨"Y", ⟨2, 1⟩, 10 ^ 10, 1, 1, 1, 1⟩]
      ⟨"Y", ⟨2, 1⟩, 10 ^ 10, 1, 1, 1, 1⟩ (by rfl)).1,
    (bulkInsert_error_atomic ⟨[⟨"Y", ⟨2, 0⟩, 7, 7, 7, 7, 7⟩], []⟩
      [⟨"Y", ⟨2, 1⟩, 10 ^ 10, 1, 1, 1, 1⟩]
      ⟨"Y", ⟨2, 1⟩, 10 ^ 10, 1, 1, 1, 1⟩ (by rfl)).2.1⟩

/-- Counterexample to claim C3 as stated: a bulk insert of one valid and
one malformed row raises, and the valid sibling row is NOT committed by
the call — the store stays empty and the caller gets the error, losing
the batch. -/
theorem bulk_failure_sibling_uncommitted_cex :
    (bulkInsert ⟨[], []⟩
        [⟨"X", ⟨0, 0⟩, 1, 1, 1, 1, 1⟩,
          ⟨"X", ⟨0, 1⟩, 10 ^ 10, 1, 1, 1, 1⟩]).1.committed = [] ∧
    (bulkInsert ⟨[], []⟩
        [⟨"X", ⟨0, 0⟩, 1, 1, 1, 1, 1⟩,
          ⟨"X", ⟨0, 1⟩, 10 ^ 10, 1, 1, 1, 1⟩]).2 =
      Except.error ⟨"X", ⟨0, 1⟩, 10 ^ 10, 1, 1, 1, 1⟩ := by
  exact ⟨rfl, rfl⟩

/-- Claim C3 as amended: when the set-based insert fails, the store
identifies the offending rows by replaying each row in its own nested
sub-transaction — the rows logged as failing are exactly the malformed
rows of the batch — but it does not commit the non-offending sibling
rows: the durable store is unchanged and the original error is
re-raised, so the caller does lose the batch (and relies on a later
idempotent re-run). -/
theorem bulkInsert_failure_replay_identifies (s : Session)
    (records : List Row) (bad : Row)
    (hbad : records.find? (fun r => !rowValid r) = some bad) :
    (pinpointAndLog { s with pending := [] } records).2 =
      records.filter (fun r => !rowValid r) ∧
    (bulkInsert s records).1.committed = s.committed ∧
    (bulkInsert s records).2 = Except.error bad := by
  cases records with
  | nil => cases hbad
  | cons r0 rest =>
    have hunfold : bulkInsert s (r0 :: rest) =
        ((pinpointAndLog { s with pending := [] } (r0 :: rest)).1,
          Except.error bad) := by
      simp [bulkInsert, hbad]
    refine ⟨pinpointAndLog_logged (r0 :: rest) _, ?_, by rw [hunfold]⟩
    rw [hunfold]
    exact pinpointAndLog_committed (r0 :: rest) _

/-- Concrete instance of the amended claim C3: the replay of a batch
with one malformed row logs exactly that row. -/
theorem bulkInsert_failure_replay_identifies_witness :
    (pinpointAndLog ⟨[], []⟩
        [⟨"Z", ⟨1, 0⟩, 4, 4, 4, 4, 4⟩,
          ⟨"Z", ⟨1, 1⟩, -(10 ^ 10), 1, 1, 1, 1⟩]).2 =
      [⟨"Z", ⟨1, 1⟩, -(10 ^ 10), 1, 1, 1, 1⟩] := by
  have h := (bulkInsert_failure_replay_identifies ⟨[], []⟩
    [⟨"Z", ⟨1, 0⟩, 4, 4, 4, 4, 4⟩, ⟨"Z", ⟨1, 1⟩, -(10 ^ 10), 1, 1, 1, 1⟩]
    ⟨"Z", ⟨1, 1⟩, -(10 ^ 10), 1, 1, 1, 1⟩ (by rfl)).1
  rw [h]
  rfl

/-!
## Lemmas: gap calculator
-/

theorem mem_daysFromTo (a b d : Int) :
    d ∈ daysFromTo a b ↔ a ≤ d ∧ d ≤ b := by
  simp only [daysFromTo, List.mem_map, List.mem_range]
  constructor
  · rintro ⟨i, hi, rfl⟩
    omega
  · rintro ⟨h1, h2⟩
    exact ⟨(d - a).toNat, by omega, by omega⟩

theorem daysFromTo_pairwise (a b : Int) :
    List.Pairwise (· < ·) (daysFromTo a b) := by
  rw [daysFromTo, List.pairwise_map]
  exact (List.pairwise_lt_range _).imp (by intro i j h; omega)

theorem mem_completeDates (cov : List CoverRow) (d : Int) :
    d ∈ completeDates cov ↔
      ∃ r ∈ cov, r.1.day = d ∧ MIN_RECORDS_PER_DAY ≤ r.2.2 := by
  simp only [completeDates, List.mem_map, List.mem_filter]
  constructor
  · rintro ⟨r, ⟨hr, hcnt⟩, rfl⟩
    exact ⟨r, hr, rfl, by simpa using hcnt⟩
  · rintro ⟨r, hr, rfl, hcnt⟩
    exact ⟨r, ⟨hr, by simpa using hcnt⟩, rfl⟩

theorem mergeMissing_covers (l : List Int) :
    ∀ rs prev, rs ≤ prev → ∀ d : Int,
      (∃ rg ∈ mergeMissing rs prev l, rg.1.day ≤ d ∧ d ≤ rg.2.day) ↔
        ((rs ≤ d ∧ d ≤ prev) ∨ d ∈ l) := by
  induction l with
  | nil =>
    intro rs prev _ d
    simp [mergeMissing, toDatetimeRange]
  | cons x rest ih =>
    intro rs prev hle d
    by_cases hx : x = prev + 1
    · simp only [mergeMissing, if_pos hx]
      rw [ih rs x (by omega) d, List.mem_cons]
      subst hx
      constructor
      · rintro (⟨h1, h2⟩ | hP)
        · by_cases hd : d = prev + 1
          · exact Or.inr (Or.inl hd)
          · exact Or.inl ⟨h1, by omega⟩
        · exact Or.inr (Or.inr hP)
      · rintro (⟨h1, h2⟩ | hd | hP)
        · exact Or.inl ⟨h1, by omega⟩
        · exact Or.inl ⟨by omega, by omega⟩
        · exact Or.inr hP
    · simp only [mergeMissing, if_neg hx, List.mem_cons]
      constructor
      · rintro ⟨rg, (rfl | hrg), h1, h2⟩
        · exact Or.inl ⟨h1, h2⟩
        · rcases (ih x x (le_refl x) d).mp ⟨rg, hrg, h1, h2⟩ with
            ⟨hx1, hx2⟩ | hmem
          · exact Or.inr (Or.inl (by omega))
          · exact Or.inr (Or.inr hmem)
      · rintro (⟨h1, h2⟩ | rfl | hmem)
        · exact ⟨toDatetimeRange rs prev, Or.inl rfl, h1, h2⟩
        · obtain ⟨rg, hrg, h1, h2⟩ :=
            (ih d d (le_refl d) d).mpr (Or.inl ⟨le_refl d, le_refl d⟩)
          exact ⟨rg, Or.inr hrg, h1, h2⟩
        · obtain ⟨rg, hrg, h1, h2⟩ :=
            (ih x x (le_refl x) d).mpr (Or.inr hmem)
          exact ⟨rg, Or.inr hrg, h1, h2⟩

theorem mergeMissing_shape (l : List Int) :
    ∀ rs prev, rs ≤ prev → ∀ rg ∈ mergeMissing rs prev l,
      rg.1.tod = 0 ∧ rg.2.tod = endOfDayTod ∧ rg.1.day ≤ rg.2.day := by
  induction l with
  | nil =>
    intro rs prev hle rg hrg
    simp only [mergeMissing, List.mem_singleton] at hrg
    subst hrg
    exact ⟨rfl, rfl, hle⟩
  | cons x rest ih =>
    intro rs prev hle rg hrg
    by_cases hx : x = prev + 1
    · simp only [mergeMissing, if_pos hx] at hrg
      exact ih rs x (by omega) rg hrg
    · simp only [mergeMissing, if_neg hx, List.mem_cons] at hrg
      rcases hrg with rfl | hrg
      · exact ⟨rfl, rfl, hle⟩
      · exact ih x x (le_refl x) rg hrg

theorem mergeMissing_head (l : List Int) :
    ∀ rs prev, ∃ q t,
      mergeMissing rs prev l = (⟨rs, 0⟩, q) :: t := by
  induction l with
  | nil => intro rs prev; exact ⟨⟨prev, endOfDayTod⟩, [], rfl⟩
  | cons x rest ih =>
    intro rs prev
    by_cases hx : x = prev + 1
    · simp only [mergeMissing, if_pos hx]
      exact ih rs x
    · simp only [mergeMissing, if_neg hx]
      exact ⟨⟨prev, endOfDayTod⟩, mergeMissing x x rest, rfl⟩

theorem mergeMissing_chain (l : List Int) :
    ∀ rs prev, List.Chain' (· < ·) (prev :: l) →
      List.Chain' (fun p q : LocalDateTime × LocalDateTime =>
        p.2.day + 1 < q.1.day) (mergeMissing rs prev l) := by
  induction l with
  | nil => intro rs prev _; simp [mergeMissing]
  | cons x rest ih =>
    intro rs prev hch
    obtain ⟨hpx, hch'⟩ := List.chain'_cons.mp hch
    by_cases hx : x = prev + 1
    · simp only [mergeMissing, if_pos hx]
      exact ih rs x hch'
    · simp only [mergeMissing, if_neg hx]
      obtain ⟨q, t, heq⟩ := mergeMissing_head rest x x
      rw [heq, List.chain'_cons]
      refine ⟨by show prev + 1 < x; omega, ?_⟩
      rw [← heq]
      exact ih x x hch'

theorem getMissingRanges_eq_walk (s e : LocalDateTime) (cov : List CoverRow)
    (hcov : cov ≠ []) :
    getMissingRanges s e cov = getMissingRangesWalk s e cov := by
  cases cov with
  | nil => exact absurd rfl hcov
  | cons c0 crest => rfl

theorem mem_missingDates (s e : LocalDateTime) (cov : List CoverRow)
    (d : Int) :
    d ∈ (daysFromTo s.day e.day).filter
        (fun d => ¬ d ∈ completeDates cov) ↔
      (s.day ≤ d ∧ d ≤ e.day ∧ ¬ d ∈ completeDates cov) := by
  rw [List.mem_filter, mem_daysFromTo]
  simp [and_assoc]

/-- Claim C2 as amended (nonempty coverage): `_get_missing_ranges`
classifies a day as complete exactly when a coverage row of that day has
count at least `MIN_RECORDS_PER_DAY` (200); the calendar days covered by
the returned ranges are exactly the window days not complete; every
range runs from a start-of-day (time 0) to an end-of-day
(`datetime.max.time()`) of a no-earlier day; and each range ends more
than one day before the next starts — so the ranges are maximal
contiguous blocks (no two adjacent missing days in different ranges)
sorted ascending by start. -/
theorem getMissingRanges_day_correct (s e : LocalDateTime)
    (cov : List CoverRow) (hcov : cov ≠ []) :
    (∀ d : Int, d ∈ completeDates cov ↔
      ∃ r ∈ cov, r.1.day = d ∧ MIN_RECORDS_PER_DAY ≤ r.2.2) ∧
    (∀ d : Int,
      (∃ rg ∈ getMissingRanges s e cov, rg.1.day ≤ d ∧ d ≤ rg.2.day) ↔
      (s.day ≤ d ∧ d ≤ e.day ∧ ¬ d ∈ completeDates cov)) ∧
    (∀ rg ∈ getMissingRanges s e cov,
      rg.1.tod = 0 ∧ rg.2.tod = endOfDayTod ∧ rg.1.day ≤ rg.2.day) ∧
    List.Chain' (fun p q : LocalDateTime × LocalDateTime =>
      p.2.day + 1 < q.1.day) (getMissingRanges s e cov) := by
  rw [getMissingRanges_eq_walk s e cov hcov]
  simp only [getMissingRangesWalk]
  cases hms : (daysFromTo s.day e.day).filter
      (fun d => ¬ d ∈ completeDates cov) with
  | nil =>
    refine ⟨fun d => mem_completeDates cov d, ?_, ?_, ?_⟩
    · intro d
      constructor
      · rintro ⟨rg, hrg, _⟩
        simp at hrg
      · rintro ⟨h1, h2, h3⟩
        have : d ∈ (daysFromTo s.day e.day).filter
            (fun d => ¬ d ∈ completeDates cov) :=
          (mem_missingDates s e cov d).mpr ⟨h1, h2, h3⟩
        rw [hms] at this
        cases this
    · intro rg hrg
      simp at hrg
    · simp
  | cons m rest =>
    have hpw : List.Pairwise (· < ·)
        ((daysFromTo s.day e.day).filter
          (fun d => ¬ d ∈ completeDates cov)) :=
      (daysFromTo_pairwise s.day e.day).filter _
    rw [hms] at hpw
    refine ⟨fun d => mem_completeDates cov d, ?_,
      mergeMissing_shape rest m m (le_refl m),
      mergeMissing_chain rest m m (List.chain'_iff_pairwise.mpr hpw)⟩
    intro d
    rw [mergeMissing_covers rest m m (le_refl m) d]
    have h2 := mem_missingDates s e cov d
    rw [hms, List.mem_cons] at h2
    constructor
    · rintro (⟨ha, hb⟩ | hr)
      · exact h2.mp (Or.inl (by omega))
      · exact h2.mp (Or.inr hr)
    · intro hR
      rcases h2.mpr hR with rfl | hr
      · exact Or.inl ⟨le_refl d, le_refl d⟩
      · exact Or.inr hr

/-- Concrete instance of the amended claim C2: with day 1 complete
(250 bars) and day 3 short (100 bars) in the window [day 0, day 4], the
returned ranges cover exactly the days {0, 2, 3, 4} and are separated
maximal blocks. -/
theorem getMissingRanges_day_correct_witness :
    ((∃ rg ∈ getMissingRanges ⟨0, 0⟩ ⟨4, 5⟩
        [(⟨1, 0⟩, ⟨1, 9⟩, 250), (⟨3, 0⟩, ⟨3, 9⟩, 100)],
      rg.1.day ≤ 2 ∧ (2 : Int) ≤ rg.2.day) ↔
      ((0 : Int) ≤ 2 ∧ (2 : Int) ≤ 4 ∧
        ¬ (2 : Int) ∈ completeDates
          [(⟨1, 0⟩, ⟨1, 9⟩, 250), (⟨3, 0⟩, ⟨3, 9⟩, 100)])) ∧
    List.Chain' (fun p q : LocalDateTime × LocalDateTime =>
      p.2.day + 1 < q.1.day)
      (getMissingRanges ⟨0, 0⟩ ⟨4, 5⟩
        [(⟨1, 0⟩, ⟨1, 9⟩, 250), (⟨3, 0⟩, ⟨3, 9⟩, 100)]) :=
  ⟨(getMissingRanges_day_correct ⟨0, 0⟩ ⟨4, 5⟩
      [(⟨1, 0⟩, ⟨1, 9⟩, 250), (⟨3, 0⟩, ⟨3, 9⟩, 100)]
      (by simp)).2.1 2,
    (getMissingRanges_day_correct ⟨0, 0⟩ ⟨4, 5⟩
      [(⟨1, 0⟩, ⟨1, 9⟩, 250), (⟨3, 0⟩, ⟨3, 9⟩, 100)]
      (by simp)).2.2.2⟩

/-- Counterexample to claim C2 as stated (for every coverage list):
with no coverage at all the shortcut returns the raw window
`[(⟨0,5⟩, ⟨1,7⟩)]`, whose bounds are not a start-of-day and an
end-of-day, although days 0 and 1 are both missing. -/
theorem getMissingRanges_not_day_aligned_cex :
    getMissingRanges ⟨0, 5⟩ ⟨1, 7⟩ [] = [(⟨0, 5⟩, ⟨1, 7⟩)] ∧
    ¬ (∀ rg ∈ getMissingRanges ⟨0, 5⟩ ⟨1, 7⟩ [],
        rg.1.tod = 0 ∧ rg.2.tod = endOfDayTod ∧ rg.1.day ≤ rg.2.day) := by
  decide

/-!
## Lemmas: empty-coverage shortcut versus per-day walk
-/

theorem mergeMissing_consecutive (n : Nat) :
    ∀ rs prev : Int,
      mergeMissing rs prev
        ((List.range n).map (fun i : Nat => prev + 1 + (i : Int))) =
      [toDatetimeRange rs (prev + n)] := by
  induction n with
  | zero => intro rs prev; simp [mergeMissing]
  | succ k ih =>
    intro rs prev
    rw [List.range_succ_eq_map, List.map_cons, List.map_map]
    have hhead : prev + 1 + ((0 : Nat) : Int) = prev + 1 := by norm_num
    rw [hhead]
    have hmap : (List.range k).map
        ((fun i : Nat => prev + 1 + (i : Int)) ∘ Nat.succ) =
        (List.range k).map (fun i : Nat => (prev + 1) + 1 + (i : Int)) := by
      apply List.map_congr_left
      intro i _
      simp only [Function.comp]
      push_cast
      ring
    rw [hmap]
    have hstep : mergeMissing rs prev ((prev + 1) ::
        (List.range k).map (fun i : Nat => (prev + 1) + 1 + (i : Int))) =
        mergeMissing rs (prev + 1)
          ((List.range k).map (fun i : Nat => (prev + 1) + 1 + (i : Int))) := by
      simp [mergeMissing]
    rw [hstep, ih rs (prev + 1)]
    have hlast : prev + 1 + (k : Int) = prev + ((k + 1 : Nat) : Int) := by
      push_cast
      ring
    rw [hlast]

theorem daysFromTo_cons (a b : Int) (h : a ≤ b) :
    daysFromTo a b =
      a :: (List.range (b - a).toNat).map
        (fun i : Nat => a + 1 + (i : Int)) := by
  rw [daysFromTo, show (b + 1 - a).toNat = (b - a).toNat + 1 by omega,
    List.range_succ_eq_map, List.map_cons, List.map_map]
  have hhead : a + ((0 : Nat) : Int) = a := by norm_num
  rw [hhead]
  congr 1
  apply List.map_congr_left
  intro i _
  simp only [Function.comp]
  push_cast
  ring

/-- Claim C4: for a non-empty window with no existing coverage,
`_get_missing_ranges` returns exactly one range equal to the entire
requested window, and the bypassed per-day walk would also return
exactly one range covering exactly the same calendar days (from the
first window day's start-of-day to the last window day's end-of-day) —
the shortcut is semantically equivalent to the walk at day
granularity. -/
theorem getMissingRanges_no_coverage (s e : LocalDateTime)
    (hle : dtLE s e) :
    getMissingRanges s e [] = [(s, e)] ∧
    getMissingRangesWalk s e [] = [toDatetimeRange s.day e.day] ∧
    (∀ d : Int,
      (∃ rg ∈ getMissingRanges s e [], rg.1.day ≤ d ∧ d ≤ rg.2.day) ↔
      (∃ rg ∈ getMissingRangesWalk s e [], rg.1.day ≤ d ∧ d ≤ rg.2.day)) := by
  have hday : s.day ≤ e.day := by
    rcases hle with h | ⟨h, _⟩
    · omega
    · omega
  have hwalk : getMissingRangesWalk s e [] =
      [toDatetimeRange s.day e.day] := by
    simp only [getMissingRangesWalk]
    have hfil : (daysFromTo s.day e.day).filter
        (fun d => ¬ d ∈ completeDates []) = daysFromTo s.day e.day := by
      apply List.filter_eq_self.mpr
      intro d _
      simp [completeDates]
    rw [hfil, daysFromTo_cons s.day e.day hday]
    show mergeMissing s.day s.day
        ((List.range (e.day - s.day).toNat).map
          (fun i : Nat => s.day + 1 + (i : Int))) =
      [toDatetimeRange s.day e.day]
    rw [mergeMissing_consecutive ((e.day - s.day).toNat) s.day s.day]
    have hend : s.day + (((e.day - s.day).toNat : Nat) : Int) = e.day := by
      omega
    rw [hend]
  refine ⟨rfl, hwalk, ?_⟩
  intro d
  constructor
  · rintro ⟨rg, hrg, h1, h2⟩
    have hrg' : rg = (s, e) := List.mem_singleton.mp hrg
    subst hrg'
    refine ⟨toDatetimeRange s.day e.day, ?_, h1, h2⟩
    rw [hwalk]
    exact List.mem_singleton.mpr rfl
  · rintro ⟨rg, hrg, h1, h2⟩
    rw [hwalk] at hrg
    have hrg' : rg = toDatetimeRange s.day e.day := by simpa using hrg
    subst hrg'
    refine ⟨(s, e), ?_, h1, h2⟩
    exact List.mem_singleton.mpr rfl

/-- Concrete instance of claim C4: a two-day window with no coverage
yields the single range equal to the window, and the per-day walk
yields the day-aligned span of the same two days. -/
theorem getMissingRanges_no_coverage_witness :
    getMissingRanges ⟨7, 123⟩ ⟨8, 456⟩ [] = [(⟨7, 123⟩, ⟨8, 456⟩)] ∧
    getMissingRangesWalk ⟨7, 123⟩ ⟨8, 456⟩ [] =
      [toDatetimeRange 7 8] :=
  ⟨(getMissingRanges_no_coverage ⟨7, 123⟩ ⟨8, 456⟩
      (Or.inl (by norm_num))).1,
    (getMissingRanges_no_coverage ⟨7, 123⟩ ⟨8, 456⟩
      (Or.inl (by norm_num))).2.1⟩

/-- Counterexample to claim C5 as stated: for a degenerate window with
`windowStart > windowEnd` the result is NOT always empty — with empty
coverage the shortcut returns the whole (degenerate) window, and with
nonempty coverage and both bounds on the same incomplete day the walk
still emits that day's range. -/
theorem getMissingRanges_degenerate_cex :
    dtLT ⟨0, 0⟩ ⟨1, 0⟩ ∧
    getMissingRanges ⟨1, 0⟩ ⟨0, 0⟩ [] ≠ [] ∧
    dtLT ⟨0, 3⟩ ⟨0, 5⟩ ∧
    getMissingRanges ⟨0, 5⟩ ⟨0, 3⟩ [(⟨0, 1⟩, ⟨0, 2⟩, 10)] ≠ [] := by
  decide

/-- Claim C5 as amended: with nonempty coverage, a window whose end
date precedes its start date yields no missing ranges; with empty
coverage (the only possible repository answer when
`windowStart > windowEnd`, since no stored row can satisfy
`start <= dt <= end`) the call returns the single degenerate range
`(windowStart, windowEnd)` rather than an empty list. -/
theorem getMissingRanges_degenerate (s e : LocalDateTime)
    (cov : List CoverRow) :
    (cov ≠ [] → e.day < s.day → getMissingRanges s e cov = []) ∧
    (cov = [] → getMissingRanges s e cov = [(s, e)]) := by
  constructor
  · intro hcov hlt
    rw [getMissingRanges_eq_walk s e cov hcov]
    simp only [getMissingRangesWalk]
    have hdays : daysFromTo s.day e.day = [] := by
      rw [daysFromTo, show (e.day + 1 - s.day).toNat = 0 by omega]
      rfl
    rw [hdays]
    rfl
  · rintro rfl
    rfl

/-- Concrete instance of the amended claim C5: start day 1, end day 0,
one complete coverage row ⇒ no ranges; start after end with empty
coverage ⇒ the degenerate whole-window range. -/
theorem getMissingRanges_degenerate_witness :
    getMissingRanges ⟨1, 0⟩ ⟨0, 0⟩ [(⟨5, 0⟩, ⟨5, 9⟩, 300)] = [] ∧
    getMissingRanges ⟨3, 2⟩ ⟨2, 1⟩ [] = [(⟨3, 2⟩, ⟨2, 1⟩)] :=
  ⟨(getMissingRanges_degenerate ⟨1, 0⟩ ⟨0, 0⟩
      [(⟨5, 0⟩, ⟨5, 9⟩, 300)]).1 (by simp) (by norm_num),
    (getMissingRanges_degenerate ⟨3, 2⟩ ⟨2, 1⟩ []).2 rfl⟩

/-!
## Lemmas: orchestrator failure containment and dry run
-/

/-- Claim C6: failure containment at both orchestrator levels — a range
whose fetch raises contributes nothing and leaves the session untouched
while the remaining ranges still run; a range whose import raises
contributes nothing and the remaining ranges run from the post-failure
session; and a ticker whose coverage query raises is skipped while the
remaining tickers still run. -/
theorem failure_containment :
    (∀ (ticker : String) (dryRun : Bool) fetch (s : Session) rg rest e,
      fetch rg = Except.error e →
      processRanges ticker dryRun fetch s (rg :: rest) =
        processRanges ticker dryRun fetch s rest) ∧
    (∀ (ticker : String) fetch (s : Session) rg rest df err,
      fetch rg = Except.ok df → df ≠ [] →
      (bulkInsert s (df.map (toRow ticker))).2 = Except.error err →
      processRanges ticker false fetch s (rg :: rest) =
        processRanges ticker false fetch
          (bulkInsert s (df.map (toRow ticker))).1 rest) ∧
    (∀ fetchEnv covEnv startD endD (dryRun : Bool) (s : Session) t rest e,
      covEnv t.ticker = Except.error e →
      processTickersLoop fetchEnv covEnv startD endD dryRun s (t :: rest) =
        processTickersLoop fetchEnv covEnv startD endD dryRun s rest) := by
  refine ⟨?_, ?_, ?_⟩
  · intro ticker dryRun fetch s rg rest e he
    simp [processRanges, processRange, he]
  · intro ticker fetch s rg rest df err hok hne herr
    have hemp : df.isEmpty = false := by
      cases df with
      | nil => exact absurd rfl hne
      | cons b bs => rfl
    rcases hbi : bulkInsert s (df.map (toRow ticker)) with ⟨s', res⟩
    rw [hbi] at herr
    obtain rfl : res = Except.error err := herr
    simp [processRanges, processRange, hok, hemp, hbi]
  · intro fetchEnv covEnv startD endD dryRun s t rest e he
    simp [processTickersLoop, processTicker, he]

/-- Concrete instance of claim C6: a failing fetch on the first of two
ranges does not stop the second range from importing its bar. -/
theorem failure_containment_witness :
    processRanges "X"
      false
      (fun rg => if rg.1.day = 0 then Except.error "boom"
        else Except.ok [⟨⟨1, 0⟩, 1, 1, 1, 1, 1⟩])
      ⟨[], []⟩
      [(⟨0, 0⟩, ⟨0, endOfDayTod⟩), (⟨1, 0⟩, ⟨1, endOfDayTod⟩)] =
    processRanges "X"
      false
      (fun rg => if rg.1.day = 0 then Except.error "boom"
        else Except.ok [⟨⟨1, 0⟩, 1, 1, 1, 1, 1⟩])
      ⟨[], []⟩
      [(⟨1, 0⟩, ⟨1, endOfDayTod⟩)] :=
  failure_containment.1 "X" false
    (fun rg => if rg.1.day = 0 then Except.error "boom"
      else Except.ok [⟨⟨1, 0⟩, 1, 1, 1, 1, 1⟩])
    ⟨[], []⟩ (⟨0, 0⟩, ⟨0, endOfDayTod⟩)
    [(⟨1, 0⟩, ⟨1, endOfDayTod⟩)] "boom" (by rfl)

theorem hasKey_map_toRow_not_mem (ticker t : String) (df : List CleanBar)
    (d : LocalDateTime) (h : ¬ d ∈ df.map (fun b => b.dt)) :
    hasKey (df.map (toRow ticker)) t d = false := by
  rw [hasKey, List.any_eq_false]
  intro r hr
  rcases List.mem_map.mp hr with ⟨b, hb, rfl⟩
  intro hcond
  rw [Bool.and_eq_true, decide_eq_true_eq, decide_eq_true_eq] at hcond
  exact h (List.mem_map.mpr ⟨b, hb, hcond.2⟩)

theorem applyInsert_fresh (rows : List Row) :
    ∀ visible, (∀ r ∈ rows, hasKey visible r.ticker r.dt = false) →
      (rows.map (fun r => (r.ticker, r.dt))).Nodup →
      applyInsert visible rows = rows := by
  induction rows with
  | nil => intro visible _ _; rfl
  | cons r0 rest ih =>
    intro visible hfresh hnd
    have h0 : hasKey visible r0.ticker r0.dt = false :=
      hfresh r0 (List.mem_cons_self _ _)
    simp only [applyInsert, h0, Bool.false_eq_true, if_false]
    rw [List.map_cons, List.nodup_cons] at hnd
    congr 1
    apply ih (visible ++ [r0])
    · intro r hr
      rw [hasKey_append, Bool.or_eq_false_iff]
      refine ⟨hfresh r (List.mem_cons_of_mem _ hr), ?_⟩
      rw [hasKey, List.any_eq_false]
      intro x hx
      rcases List.mem_singleton.mp hx with rfl
      intro hcond
      rw [Bool.and_eq_true, decide_eq_true_eq, decide_eq_true_eq] at hcond
      exact hnd.1 (List.mem_map.mpr ⟨r, hr, by rw [← hcond.1, ← hcond.2]⟩)
    · exact hnd.2

theorem processRanges_dry_session (ticker : String)
    (fetch : LocalDateTime × LocalDateTime → Except String (List CleanBar)) :
    ∀ rs (s : Session), (processRanges ticker true fetch s rs).1 = s := by
  intro rs
  induction rs with
  | nil => intro s; rfl
  | cons rg rest ih =>
    intro s
    cases hf : fetch rg with
    | error e => simp [processRanges, processRange, hf, ih]
    | ok df => cases hdf : df.isEmpty <;>
        simp [processRanges, processRange, hf, hdf, ih]

theorem processRanges_dry_count (ticker : String)
    (fetch : LocalDateTime × LocalDateTime → Except String (List CleanBar)) :
    ∀ rs (s : Session),
      (processRanges ticker true fetch s rs).2 =
        (fetchedBars fetch rs).length := by
  intro rs
  induction rs with
  | nil => intro s; rfl
  | cons rg rest ih =>
    intro s
    cases hf : fetch rg with
    | error e => simp [processRanges, processRange, fetchedBars, hf, ih]
    | ok df =>
      cases hdf : df.isEmpty with
      | true =>
        have : df = [] := List.isEmpty_iff.mp hdf
        subst this
        simp [processRanges, processRange, fetchedBars, hf, ih]
      | false =>
        simp [processRanges, processRange, fetchedBars, hf, hdf, ih]

theorem bulkInsert_success (s : Session) (records : List Row)
    (hne : records ≠ [])
    (hfind : records.find? (fun r => !rowValid r) = none) :
    bulkInsert s records =
      (⟨s.committed ++ s.pending ++
          applyInsert (s.committed ++ s.pending) records, []⟩,
        Except.ok
          (applyInsert (s.committed ++ s.pending) records).length) := by
  cases records with
  | nil => exact absurd rfl hne
  | cons r0 rest => simp [bulkInsert, hfind]

theorem processRanges_cons (ticker : String) (dr : Bool)
    (fetch : LocalDateTime × LocalDateTime → Except String (List CleanBar))
    (s : Session) (rg : LocalDateTime × LocalDateTime)
    (rest : List (LocalDateTime × LocalDateTime)) :
    processRanges ticker dr fetch s (rg :: rest) =
      ((processRanges ticker dr fetch
          (processRange ticker dr fetch s rg).1 rest).1,
        (processRange ticker dr fetch s rg).2 +
          (processRanges ticker dr fetch
            (processRange ticker dr fetch s rg).1 rest).2) := by
  simp only [processRanges]

theorem processRanges_real_count (ticker : String)
    (fetch : LocalDateTime × LocalDateTime → Except String (List CleanBar)) :
    ∀ rs (s : Session), s.pending = [] →
      (∀ b ∈ fetchedBars fetch rs, rowValid (toRow ticker b) = true) →
      ((fetchedBars fetch rs).map (fun b => b.dt)).Nodup →
      (∀ b ∈ fetchedBars fetch rs,
        hasKey s.committed ticker b.dt = false) →
      (processRanges ticker false fetch s rs).2 =
        (fetchedBars fetch rs).length ∧
      (processRanges ticker false fetch s rs).1 =
        ⟨s.committed ++ (fetchedBars fetch rs).map (toRow ticker), []⟩ := by
  intro rs
  induction rs with
  | nil =>
    intro s hpend _ _ _
    obtain ⟨comm, pend⟩ := s
    simp only at hpend
    subst hpend
    exact ⟨rfl, by simp [processRanges, fetchedBars]⟩
  | cons rg rest ih =>
    intro s hpend hval hnd hfresh
    obtain ⟨comm, pend⟩ := s
    simp only at hpend
    subst hpend
    rw [processRanges_cons]
    cases hf : fetch rg with
    | error e =>
      have hfb : fetchedBars fetch (rg :: rest) =
          fetchedBars fetch rest := by
        simp [fetchedBars, hf]
      rw [hfb] at hval hnd hfresh ⊢
      have hpr : processRange ticker false fetch ⟨comm, []⟩ rg =
          (⟨comm, []⟩, 0) := by
        simp [processRange, hf]
      rw [hpr]
      have hih := ih ⟨comm, []⟩ rfl hval hnd hfresh
      exact ⟨by rw [Nat.zero_add]; exact hih.1, hih.2⟩
    | ok df =>
      cases hdf : df.isEmpty with
      | true =>
        obtain rfl : df = [] := List.isEmpty_iff.mp hdf
        have hfb : fetchedBars fetch (rg :: rest) =
            fetchedBars fetch rest := by
          simp [fetchedBars, hf]
        rw [hfb] at hval hnd hfresh ⊢
        have hpr : processRange ticker false fetch ⟨comm, []⟩ rg =
            (⟨comm, []⟩, 0) := by
          simp [processRange, hf]
        rw [hpr]
        have hih := ih ⟨comm, []⟩ rfl hval hnd hfresh
        exact ⟨by rw [Nat.zero_add]; exact hih.1, hih.2⟩
      | false =>
        have hdfne : df ≠ [] := by
          cases df with
          | nil => cases hdf
          | cons b bs => exact List.cons_ne_nil b bs
        have hfb : fetchedBars fetch (rg :: rest) =
            df ++ fetchedBars fetch rest := by
          simp [fetchedBars, hf]
        rw [hfb] at hval hnd hfresh ⊢
        rw [List.map_append] at hnd
        obtain ⟨hnd1, hnd2, hdisj⟩ := List.nodup_append.mp hnd
        have hvaldf : ∀ b ∈ df, rowValid (toRow ticker b) = true :=
          fun b hb => hval b (List.mem_append_left _ hb)
        have hvalrest : ∀ b ∈ fetchedBars fetch rest,
            rowValid (toRow ticker b) = true :=
          fun b hb => hval b (List.mem_append_right _ hb)
        have hfreshdf : ∀ b ∈ df, hasKey comm ticker b.dt = false :=
          fun b hb => hfresh b (List.mem_append_left _ hb)
        have hfreshrest : ∀ b ∈ fetchedBars fetch rest,
            hasKey comm ticker b.dt = false :=
          fun b hb => hfresh b (List.mem_append_right _ hb)
        have hrowsne : df.map (toRow ticker) ≠ [] := by
          cases df with
          | nil => exact absurd rfl hdfne
          | cons b bs => exact List.cons_ne_nil _ _
        have hfind : (df.map (toRow ticker)).find?
            (fun r => !rowValid r) = none := by
          rw [List.find?_eq_none]
          intro r hr
          rcases List.mem_map.mp hr with ⟨b, hb, rfl⟩
          simp [hvaldf b hb]
        have happly : applyInsert comm (df.map (toRow ticker)) =
            df.map (toRow ticker) := by
          apply applyInsert_fresh
          · intro r hr
            rcases List.mem_map.mp hr with ⟨b, hb, rfl⟩
            exact hfreshdf b hb
          · rw [List.map_map]
            have hkeys : ((df.map (fun b => b.dt)).map
                (fun d => (ticker, d))).Nodup :=
              hnd1.map (fun a b hab => (Prod.ext_iff.mp hab).2)
            rw [List.map_map] at hkeys
            exact hkeys
        have hbulk : bulkInsert ⟨comm, []⟩ (df.map (toRow ticker)) =
            (⟨comm ++ df.map (toRow ticker), []⟩,
              Except.ok (df.map (toRow ticker)).length) := by
          rw [bulkInsert_success ⟨comm, []⟩ _ hrowsne hfind]
          simp only [List.append_nil]
          rw [happly]
        have hpr : processRange ticker false fetch ⟨comm, []⟩ rg =
            (⟨comm ++ df.map (toRow ticker), []⟩,
              (df.map (toRow ticker)).length) := by
          simp [processRange, hf, hdf, hbulk]
        rw [hpr]
        have hih := ih ⟨comm ++ df.map (toRow ticker), []⟩ rfl
          hvalrest hnd2 (by
            intro b hb
            rw [hasKey_append, Bool.or_eq_false_iff]
            refine ⟨hfreshrest b hb, ?_⟩
            apply hasKey_map_toRow_not_mem
            intro hmem
            exact (List.disjoint_right.mp hdisj
              (List.mem_map.mpr ⟨b, hb, rfl⟩)) hmem)
        refine ⟨?_, ?_⟩
        · rw [hih.1]
          simp [List.length_append]
        · rw [hih.2]
          simp [List.map_append]

/-- Counterexample to claim C7 as stated: if a fetched frame carries two
bars with the same minute timestamp, the dry run reports 2 "would
import" while the real run from the same empty store inserts only 1
(the conflict-skipping insert drops the duplicate key), so the reported
count does not always match. -/
theorem dry_run_count_mismatch_cex :
    (processRanges "X" true
      (fun _ => Except.ok
        [⟨⟨0, 0⟩, 1, 1, 1, 1, 1⟩, ⟨⟨0, 0⟩, 2, 2, 2, 2, 2⟩])
      ⟨[], []⟩ [(⟨0, 0⟩, ⟨0, endOfDayTod⟩)]).2 = 2 ∧
    (processRanges "X" false
      (fun _ => Except.ok
        [⟨⟨0, 0⟩, 1, 1, 1, 1, 1⟩, ⟨⟨0, 0⟩, 2, 2, 2, 2, 2⟩])
      ⟨[], []⟩ [(⟨0, 0⟩, ⟨0, endOfDayTod⟩)]).2 = 1 := ⟨rfl, rfl⟩

/-- Claim C7 as amended: in dry-run mode the range loop never touches
the store — the session comes back unchanged, so no bulk insert happens
and zero rows are persisted — and, starting from the empty store, the
reported "would import" count equals what a real run with identical
fetch results imports, provided the fetched bars are storable and their
timestamps are pairwise distinct (with duplicated timestamps the dry
count over-reports; see the counterexample). -/
theorem dry_run_frame_and_count (ticker : String)
    (fetch : LocalDateTime × LocalDateTime → Except String (List CleanBar))
    (rs : List (LocalDateTime × LocalDateTime)) :
    (∀ s : Session, (processRanges ticker true fetch s rs).1 = s) ∧
    ((∀ b ∈ fetchedBars fetch rs, rowValid (toRow ticker b) = true) →
      ((fetchedBars fetch rs).map (fun b => b.dt)).Nodup →
      (processRanges ticker true fetch ⟨[], []⟩ rs).2 =
        (processRanges ticker false fetch ⟨[], []⟩ rs).2) := by
  refine ⟨processRanges_dry_session ticker fetch rs, ?_⟩
  intro hval hnd
  rw [processRanges_dry_count ticker fetch rs ⟨[], []⟩,
    (processRanges_real_count ticker fetch rs ⟨[], []⟩ rfl hval hnd
      (fun b _ => rfl)).1]

/-- Concrete instance of the amended claim C7: one range, one storable
bar — the dry-run count equals the real-run count from the empty
store. -/
theorem dry_run_frame_and_count_witness :
    (processRanges "X" true
      (fun _ => Except.ok [⟨⟨0, 0⟩, 1, 1, 1, 1, 1⟩])
      ⟨[], []⟩ [(⟨0, 0⟩, ⟨0, endOfDayTod⟩)]).2 =
    (processRanges "X" false
      (fun _ => Except.ok [⟨⟨0, 0⟩, 1, 1, 1, 1, 1⟩])
      ⟨[], []⟩ [(⟨0, 0⟩, ⟨0, endOfDayTod⟩)]).2 :=
  (dry_run_frame_and_count "X"
    (fun _ => Except.ok [⟨⟨0, 0⟩, 1, 1, 1, 1, 1⟩])
    [(⟨0, 0⟩, ⟨0, endOfDayTod⟩)]).2 (by decide) (by decide)

/-!
## Lemmas: active-ticker filtering
-/

/-- Counterexample to claim C10 as stated: `specific_ticker` naming an
inactive instrument whose code is the empty string is falsy in Python,
so the filter is dropped entirely and `get_active_tickers` returns all
active tickers instead of the empty list. -/
theorem getActiveTickers_empty_string_cex :
    (⟨"", false⟩ : TickerRec) ∈
      [(⟨"", false⟩ : TickerRec), ⟨"A", true⟩] ∧
    getActiveTickers [⟨"", false⟩, ⟨"A", true⟩] (some "") =
      [⟨"A", true⟩] := by
  constructor
  · exact List.mem_cons_self _ _
  · rfl

/-- Claim C10 as amended: for a non-empty `specific_ticker` string all
of whose registry entries are inactive, `get_active_tickers` returns
the empty list, and the whole orchestrator run with that filter leaves
the store untouched — an explicitly named inactive instrument is
silently skipped (only the falsy empty-string code bypasses the
filter). -/
theorem inactive_specific_ticker_skipped (registry : List TickerRec)
    (sp : String) (hsp : sp ≠ "")
    (hin : ∀ t ∈ registry, t.ticker = sp → t.is_active = false) :
    getActiveTickers registry (some sp) = [] ∧
    (∀ fetchEnv covEnv startD endD (dryRun : Bool) (s : Session),
      processAllTickers fetchEnv covEnv registry (some sp) startD endD
        dryRun s = s) := by
  have hempty : getActiveTickers registry (some sp) = [] := by
    simp only [getActiveTickers, ne_eq, hsp, not_false_eq_true, if_true]
    rw [List.filter_eq_nil_iff]
    intro t ht hcond
    rw [Bool.and_eq_true, decide_eq_true_eq] at hcond
    rw [hin t ht hcond.1] at hcond
    exact Bool.false_ne_true hcond.2
  refine ⟨hempty, fun fetchEnv covEnv startD endD dryRun s => ?_⟩
  rw [processAllTickers, hempty]
  rfl

/-- Concrete instance of the amended claim C10: naming the inactive
instrument "B" returns no tickers and the orchestrator stores
nothing. -/
theorem inactive_specific_ticker_skipped_witness :
    getActiveTickers [⟨"B", false⟩, ⟨"A", true⟩] (some "B") = [] :=
  (inactive_specific_ticker_skipped [⟨"B", false⟩, ⟨"A", true⟩] "B"
    (by decide) (by decide)).1
